import Mathlib

/-!
Verification development for the `ripe-lg-graph` path-to-graph construction
engine (`ripe-lg-graph.py`).  Python strings are shallowly embedded as
`List Char`; the mutable `nodes` / `edges` dictionaries of `make_bgpmap`
become explicit state (`GraphState`) threaded through pure step functions.
External I/O (the DNS-based AS-name lookup `query_asn_info(asn)[-1]`) is
abstracted as a function parameter `resolve`; the per-path random colour is
abstracted as a function parameter `colorOf`.  Run-time failures of the
script (Python `IndexError` / `UnboundLocalError`) are modelled by returning
`none`.
-/

/-- Python strings, embedded character by character. -/
abbrev PyStr := List Char

/-- Python `s.split(sep)` for a single-character separator: splits on every
occurrence, keeping empty pieces; the empty string yields `[""]`.
`List.splitOn` has exactly these semantics. -/
def splitOnChar (sep : Char) (s : PyStr) : List PyStr :=
  s.splitOn sep

/-- Python `sep.join(pieces)` for a single-character separator. -/
def joinChar (sep : Char) (ls : List PyStr) : PyStr :=
  List.intercalate [sep] ls

/-- Per-character expansion used by the builder's local `escape`: `&` first,
then `>`, then `<` (the sequential `str.replace` calls in the source never
rescan their own replacement text, so they amount to this single pass). -/
def escapeChar (c : Char) : PyStr :=
  if c = '&' then "&amp;".toList
  else if c = '>' then "&gt;".toList
  else if c = '<' then "&lt;".toList
  else [c]

/-- The builder's local `escape(label)` helper (lines 183-187). -/
def pyEscape (s : PyStr) : PyStr :=
  (s.map escapeChar).flatten

/-- Python `s.replace(" ", "\r", 1)`: rewrite only the first space. -/
def replaceFirstSpace : PyStr → PyStr
  | [] => []
  | c :: cs => if c = ' ' then '\r' :: cs else c :: replaceFirstSpace cs

/-- Python whitespace set recognised by `str.strip()`. -/
def pySpace (c : Char) : Bool :=
  c = ' ' ∨ c = '\t' ∨ c = '\n' ∨ c = '\r' ∨ c = Char.ofNat 11 ∨ c = Char.ofNat 12

/-- Python `s.strip()`. -/
def pyStrip (s : PyStr) : PyStr :=
  ((s.dropWhile pySpace).reverse.dropWhile pySpace).reverse

/-- Python `s.isdigit()` restricted to ASCII digits (the only case exercised
by AS-number tokens). -/
def pyIsDigit (s : PyStr) : Bool :=
  s ≠ [] ∧ s.all Char.isDigit

/-- `get_as_name(_as)` (lines 163-171).  `resolve` stands for the external
DNS lookup `query_asn_info(_as)[-1]` (the last Cymru field, or the last
character of the 5-space placeholder on failure). -/
def getAsName (resolve : PyStr → PyStr) (a : PyStr) : PyStr :=
  if a = [] then "AS?????".toList
  else if ¬ pyIsDigit a then pyStrip a
  else "AS".toList ++ a ++ " | ".toList ++ replaceFirstSpace (resolve a)

/-- Opening part of the HTML-like table markup wrapped around every node
label in `add_node` (line 193). -/
def tableOpen : PyStr :=
  "<<TABLE CELLBORDER=\"0\" BORDER=\"0\" CELLPADDING=\"0\" CELLSPACING=\"0\"><TR><TD ALIGN=\"CENTER\">".toList

/-- Closing part of the node-label markup. -/
def tableClose : PyStr := "</TD></TR></TABLE>>".toList

/-- Python `s.replace("\r", "<BR/>")` (all occurrences; the replacement text
contains no carriage return, so a single pass is faithful). -/
def crToBr (s : PyStr) : PyStr :=
  (s.map (fun c => if c = '\r' then "<BR/>".toList else [c])).flatten

/-- Node-label wrapping performed by `add_node`: escape, then turn carriage
returns into `<BR/>`, then wrap in the table markup. -/
def wrapLabel (lbl : PyStr) : PyStr :=
  tableOpen ++ crToBr (pyEscape lbl) ++ tableClose

/-- A `pydot.Node` as created by `add_node`: identifier, wrapped label and
the attributes the builder sets (`style="filled"`, `fontsize="10"`,
optional `fillcolor` / `shape`). -/
structure PNode where
  name : PyStr
  label : PyStr
  style : PyStr
  fontsize : PyStr
  fillcolor : Option PyStr
  shape : Option PyStr
deriving DecidableEq, Repr

/-- A `pydot.Edge` as created by `add_edge`: ordered endpoints (node
identifiers), optional label string, `fontsize="7"`, `splines="true"`, and
the mutable `style` / `color` attributes (unset = `none`). -/
structure PEdge where
  src : PyStr
  dst : PyStr
  label : Option PyStr
  fontsize : PyStr
  splines : PyStr
  style : Option PyStr
  color : Option PyStr
deriving DecidableEq, Repr

/-- The builder's mutable state: the `nodes` and `edges` dictionaries of
`make_bgpmap` (insertion-ordered; the pydot graph holds exactly the same
objects because `force` is never passed). -/
structure GraphState where
  nodes : List PNode
  edges : List PEdge
deriving DecidableEq, Repr

/-- The empty graph a build starts from. -/
def graphState0 : GraphState := ⟨[], []⟩

/-- Lookup of a node by identifier (the `nodes` dictionary). -/
def getNode (g : GraphState) (name : PyStr) : Option PNode :=
  g.nodes.find? (fun n => decide (n.name = name))

/-- Lookup of an edge by its ordered endpoint pair (the `edges` dictionary,
keyed by the node objects, hence by their identifiers). -/
def getEdge (g : GraphState) (a b : PyStr) : Option PEdge :=
  g.edges.find? (fun e => decide (e.src = a ∧ e.dst = b))

/-- `add_node(_as, **kwargs)` (lines 189-197): first write wins; a new node
gets the wrapped label (provided label, or the resolved AS name),
`style="filled"`, `fontsize="10"` and the given fill colour / shape. -/
def addNode (resolve : PyStr → PyStr) (g : GraphState) (name : PyStr)
    (lbl : Option PyStr) (fill : Option PyStr) (shape : Option PyStr) : GraphState :=
  if (getNode g name).isSome then g
  else
    { g with nodes := g.nodes ++
        [⟨name, wrapLabel (lbl.getD (getAsName resolve name)),
          "filled".toList, "10".toList, fill, shape⟩] }

/-- In-place update of the edge object stored for the ordered pair `(a, b)`
(the Python code mutates the shared `pydot.Edge` object). -/
def updEdge (g : GraphState) (a b : PyStr) (f : PEdge → PEdge) : GraphState :=
  { g with edges := g.edges.map (fun e => if e.src = a ∧ e.dst = b then f e else e) }

/-- `edge.set_style(v)`. -/
def setEdgeStyle (g : GraphState) (a b : PyStr) (v : PyStr) : GraphState :=
  updEdge g a b (fun e => { e with style := some v })

/-- `edge.set_color(v)`. -/
def setEdgeColor (g : GraphState) (a b : PyStr) (v : PyStr) : GraphState :=
  updEdge g a b (fun e => { e with color := some v })

/-- The new label string's bare form as computed by `add_edge`
(`kwargs["label"].replace("*", "")`). -/
def stripAllStars (l : PyStr) : PyStr := l.filter (· ≠ '*')

/-- Python `x.endswith("*")`. -/
def endsStar (x : PyStr) : Bool := x.getLast? == some '*'

/-- The stable sort of `add_edge` (line 220): a two-valued sort key, so the
starred entries keep their relative order and move in front of the
unstarred ones. -/
def sortStarredFirst (ls : List PyStr) : List PyStr :=
  ls.filter endsStar ++ ls.filter (fun x => ¬ endsStar x)

/-- Label merging of `add_edge` on an existing edge (lines 209-224), given
the edge's current label string `cur` and the non-empty new label `l`:
split on carriage returns, do nothing if the starred bare form is already
present, otherwise prepend the new label, drop entries starting with the
bare form, stable-sort starred entries first, re-join and re-escape. -/
def mergedLabelStr (cur l : PyStr) : PyStr :=
  let labels := splitOnChar '\r' cur
  let ls := sortStarredFirst (l :: labels.filter (fun x => ¬ (stripAllStars l).isPrefixOf x))
  pyEscape (joinChar '\r' ls)

/-- `add_edge(_previous_as, _as, **kwargs)` with `force` never supplied
(lines 199-225): create the edge if the ordered pair is new; otherwise, if a
non-empty label was supplied and the existing edge has a label, merge it;
an existing edge without a label, or a call without a (truthy) label,
leaves the state unchanged. -/
def addEdge (g : GraphState) (a b : PyStr) (lbl : Option PyStr) : GraphState :=
  match getEdge g a b with
  | none =>
      { g with edges := g.edges ++
          [⟨a, b, lbl, "7".toList, "true".toList, none, none⟩] }
  | some e =>
      match lbl with
      | none => g
      | some l =>
          if l = [] then g
          else
            match e.label with
            | none => g
            | some cur =>
                if (stripAllStars l ++ ['*']) ∈ splitOnChar '\r' cur then g
                else updEdge g a b (fun e0 => { e0 with label := some (mergedLabelStr cur l) })

/-- Fill colour of highlighted nodes and of the vantage-point / target
nodes (`"#F5A9A9"`). -/
def fillRed : PyStr := "#F5A9A9".toList

/-- Fill colour of neutral nodes (`"white"`). -/
def fillWhite : PyStr := "white".toList

/-- Shape attribute of box-styled nodes. -/
def boxShape : PyStr := "box".toList

/-- Identifier of the terminal target node (line 270 creates the node named
`"Prefix"`, whose displayed label is the target resource string). -/
def targetNodeName : PyStr := "Prefix".toList

/-- The hop label computed on the first loop iteration of a path
(lines 241-245): the raw first token, with a trailing `*` marker when the
path is the primary (first) one. -/
def mkHopLabel (first : Bool) (t : PyStr) : PyStr :=
  if first then t ++ ['*'] else t

/-- State threaded through the token loop of one path: the graph, the
Python locals `previous_as`, `hop` and `hop_label`. -/
structure BuildSt where
  g : GraphState
  prev : PyStr
  hop : Bool
  hopLabel : PyStr
deriving DecidableEq, Repr

/-- Edge style resolution after each edge add (lines 259-264): a primary
path or a token equal to the path string's last character forces bold red;
otherwise the edge is set to dashed in the path's colour unless it is
already bold. -/
def styleResolve (first isL : Bool) (color : PyStr) (g : GraphState) (a b : PyStr) : GraphState :=
  if first ∨ isL then setEdgeColor (setEdgeStyle g a b "bold".toList) a b "red".toList
  else if ((getEdge g a b).bind (·.style)) ≠ some "bold".toList then
    setEdgeColor (setEdgeStyle g a b "dashed".toList) a b color
  else g

/-- One iteration of the token loop of `make_bgpmap` (lines 239-266).
`lastChar` is `asmap[-1]`, the last character of the raw path string: the
source compares each token `_as` against that single character (line 247),
so `isL` holds only for tokens that are that one-character string. -/
def tokenStep (resolve : PyStr → PyStr) (first : Bool) (color : PyStr) (lastChar : Char)
    (st : BuildSt) (t : PyStr) : BuildSt :=
  let hl := if st.hop then st.hopLabel else mkHopLabel first t
  let isL : Bool := t = [lastChar]
  let g1 :=
    if isL then addNode resolve st.g t none (some fillRed) (some boxShape)
    else addNode resolve st.g t none (some (if first then fillRed else fillWhite)) none
  let g2 := if hl ≠ [] then addEdge g1 st.prev t (some hl) else addEdge g1 st.prev t none
  let g3 := styleResolve first isL color g2 st.prev t
  ⟨g3, t, true, []⟩

/-- Processing of one path string (lines 232-266): `previous_as` restarts at
the vantage-point node, the tokens are `asmap.split(" ")`, and evaluating
`asmap[-1]` on the empty path string raises `IndexError` (modelled as
`none`).  Returns the final graph and the last token visited. -/
def processPath (resolve : PyStr → PyStr) (rrcFull : PyStr) (first : Bool) (color : PyStr)
    (g : GraphState) (asmap : PyStr) : Option (GraphState × PyStr) :=
  match asmap.getLast? with
  | none => none
  | some lastChar =>
      let st := (splitOnChar ' ' asmap).foldl (tokenStep resolve first color lastChar)
        ⟨g, rrcFull, false, []⟩
      some (st.g, st.prev)

/-- The path loop of `make_bgpmap`: processes the paths in order, the first
one flagged primary, each with its own colour; threads the last token
visited (`_as` after the loops, `none` while no token was ever bound). -/
def buildPaths (resolve : PyStr → PyStr) (rrcFull : PyStr) (colorOf : Nat → PyStr) :
    List PyStr → Nat → GraphState → Option PyStr → Option (GraphState × Option PyStr)
  | [], _, g, lastTok => some (g, lastTok)
  | p :: rest, i, g, _ =>
      match processPath resolve rrcFull (i = 0) (colorOf i) g p with
      | none => none
      | some (g1, tok) => buildPaths resolve rrcFull colorOf rest (i + 1) g1 (some tok)

/-- `make_bgpmap(rrc, rrc_data_dict)` (lines 174-278), abstracted over the
AS-name resolver, the per-path colours, and the module-global `target`.
Creates the vantage-point node (`f"{rrc} - {location}"`, labelled `rrc`,
highlighted box), processes every path, then adds the target node
(`"Prefix"`, labelled with the target string, highlighted box) and the
final bold red edge from the last token visited.  Yields `none` where the
script raises: an empty path string (`IndexError` on `asmap[-1]`) or an
empty path list (`UnboundLocalError`: the final edge reads the loop
variable `_as`, which was never bound). -/
def makeBgpmap (resolve : PyStr → PyStr) (target : PyStr) (rrc : PyStr) (location : PyStr)
    (paths : List PyStr) (colorOf : Nat → PyStr) : Option GraphState :=
  let rrcFull := rrc ++ " - ".toList ++ location
  let g0 := addNode resolve graphState0 rrcFull (some rrc) (some fillRed) (some boxShape)
  match buildPaths resolve rrcFull colorOf paths 0 g0 none with
  | none => none
  | some (g1, lastTok) =>
      match lastTok with
      | none => none
      | some tok =>
          let g2 := addNode resolve g1 targetNodeName (some target) (some fillRed) (some boxShape)
          let g3 := addEdge g2 tok targetNodeName none
          some (setEdgeColor (setEdgeStyle g3 tok targetNodeName "bold".toList) tok targetNodeName "red".toList)

/-- One step of the prepend-stripping loop of `get_rrc_data`
(lines 127-130): `"".join(as_path_list[-1:]) == as_number` skips a token
equal to the last appended one (and, for an empty accumulator, skips an
empty token, since the join of the empty slice is the empty string). -/
def normStep (acc : List PyStr) (t : PyStr) : List PyStr :=
  if acc.getLast?.getD [] = t then acc else acc ++ [t]

/-- Prepend stripping of `get_rrc_data` (lines 124-132), at the level of
the token sequence produced by `as_path.split(" ")`. -/
def normalizePath (toks : List PyStr) : List PyStr :=
  toks.foldl normStep []


/-! ### Utility lemmas on the embedded string operations -/

/-- Characters left unchanged by the builder's `escape`. -/
def escapeInert (c : Char) : Prop := c ≠ '&' ∧ c ≠ '>' ∧ c ≠ '<'

/-- No unstarred entry precedes a starred one: the order invariant of a
rendered label list. -/
def starredFirst (ls : List PyStr) : Prop :=
  ls.Pairwise (fun x y => endsStar y = true → endsStar x = true)

/-- No two edge objects of the graph share the same ordered endpoint pair. -/
def distinctEdgeKeys (g : GraphState) : Prop :=
  g.edges.Pairwise (fun e1 e2 => ¬ (e1.src = e2.src ∧ e1.dst = e2.dst))

/-- The ordered pair `(a, b)` has an edge object, and every edge object with
that pair is bold and red. -/
def boldRedAt (g : GraphState) (a b : PyStr) : Prop :=
  (∃ e ∈ g.edges, e.src = a ∧ e.dst = b) ∧
  ∀ e ∈ g.edges, e.src = a → e.dst = b →
    (e.style = some "bold".toList ∧ e.color = some "red".toList)

/-- Every edge label of the graph, split into its entry list, lists starred
entries before unstarred ones. -/
def graphLabelsOk (g : GraphState) : Prop :=
  ∀ e ∈ g.edges, ∀ cur, e.label = some cur → starredFirst (splitOnChar '\r' cur)

/-- Concrete resolver used for witnesses: every AS number resolves to the
same two-word name. -/
def rsvX : PyStr → PyStr := fun _ => "Example Name".toList

/-- Concrete per-path colour choice used for witnesses. -/
def colorX : Nat → PyStr := fun _ => "#abcabc".toList

/-- Concrete state used for the C8 witness: one bold red edge `A → B`. -/
def gBold : GraphState :=
  ⟨[], [⟨"A".toList, "B".toList, none, "7".toList, "true".toList,
    some "bold".toList, some "red".toList⟩]⟩

/-- Concrete edge used for the C6 and C7 witnesses: labelled `200*`. -/
def eW : PEdge :=
  ⟨"S".toList, "D".toList, some "200*".toList, "7".toList, "true".toList, none, none⟩

/-- Concrete one-edge state used for the C6 and C7 witnesses. -/
def gW : GraphState := ⟨[], [eW]⟩

/-- The Scenario B build: vantage point `RRC01`, primary path
`"100 200 300"` and alternate path `"100 400 300"`. -/
def scenB : GraphState :=
  (makeBgpmap rsvX "193.0.0.0/21".toList "RRC01".toList "Amsterdam".toList
    ["100 200 300".toList, "100 400 300".toList] colorX).getD graphState0

/-- A token-loop iteration after the first: the hop label was already
consumed and cleared, so the edge-add call passes no label at all. -/
def laterHopStep (resolve : PyStr → PyStr) (first : Bool) (color : PyStr) (lastChar : Char)
    (s : GraphState × PyStr) (t : PyStr) : GraphState × PyStr :=
  let isL : Bool := t = [lastChar]
  let g1 :=
    if isL then addNode resolve s.1 t none (some fillRed) (some boxShape)
    else addNode resolve s.1 t none (some (if first then fillRed else fillWhite)) none
  let g2 := addEdge g1 s.2 t none
  (styleResolve first isL color g2 s.2 t, t)

/-- The first token-loop iteration of a path: the edge-add call passes the
raw first token as label — with a trailing `*` exactly when the path is
primary (`mkHopLabel`) — unless that label is the empty string. -/
def firstHopStep (resolve : PyStr → PyStr) (first : Bool) (color : PyStr) (lastChar : Char)
    (s : GraphState × PyStr) (t : PyStr) : GraphState × PyStr :=
  let isL : Bool := t = [lastChar]
  let g1 :=
    if isL then addNode resolve s.1 t none (some fillRed) (some boxShape)
    else addNode resolve s.1 t none (some (if first then fillRed else fillWhite)) none
  let g2 :=
    if mkHopLabel first t ≠ [] then addEdge g1 s.2 t (some (mkHopLabel first t))
    else addEdge g1 s.2 t none
  (styleResolve first isL color g2 s.2 t, t)

/-- The bare form of a label entry in the spec's sense: the entry with its
trailing primary marker stripped. -/
def bareForm (x : PyStr) : PyStr := if endsStar x then x.dropLast else x

/-! ### Lemmas and claim theorems -/

theorem splitOnChar_ne_nil (sep : Char) (s : PyStr) : splitOnChar sep s ≠ [] := by
  simpa [splitOnChar, List.splitOn] using List.splitOnP_ne_nil (· == sep) s

theorem mem_splitOnChar {sep : Char} :
    ∀ {s t : PyStr}, t ∈ splitOnChar sep s → (∀ c ∈ t, c ∈ s) ∧ sep ∉ t := by
  intro s
  induction s with
  | nil =>
    intro t ht
    simp only [splitOnChar, List.splitOn_nil, List.mem_singleton] at ht
    subst ht; simp
  | cons c cs ih =>
    intro t ht
    simp only [splitOnChar, List.splitOn, List.splitOnP_cons] at ht
    by_cases hc : c = sep
    · rw [if_pos (by simp [hc])] at ht
      rcases List.mem_cons.1 ht with rfl | ht2
      · simp
      · have := ih (t := t) ht2
        exact ⟨fun d hd => List.mem_cons_of_mem _ (this.1 d hd), this.2⟩
    · rw [if_neg (by simp [hc])] at ht
      rcases h : List.splitOnP (· == sep) cs with _ | ⟨u, us⟩
      · exact absurd h (List.splitOnP_ne_nil _ cs)
      · rw [h, List.modifyHead_cons] at ht
        rcases List.mem_cons.1 ht with rfl | ht2
        · have hu := ih (t := u) (by rw [splitOnChar, List.splitOn, h]; exact List.mem_cons_self u us)
          constructor
          · intro d hd
            rcases List.mem_cons.1 hd with rfl | hd
            · exact List.mem_cons_self _ _
            · exact List.mem_cons_of_mem _ (hu.1 d hd)
          · intro hsep
            rcases List.mem_cons.1 hsep with h1 | h1
            · exact hc h1.symm
            · exact hu.2 h1
        · have := ih (t := t) (by rw [splitOnChar, List.splitOn, h]; exact List.mem_cons_of_mem u ht2)
          exact ⟨fun d hd => List.mem_cons_of_mem _ (this.1 d hd), this.2⟩

theorem splitOnChar_joinChar {sep : Char} {ls : List PyStr} (hls : ls ≠ [])
    (hx : ∀ l ∈ ls, sep ∉ l) : splitOnChar sep (joinChar sep ls) = ls := by
  simpa [splitOnChar, joinChar] using List.splitOn_intercalate _ sep hx hls

theorem splitOnChar_of_not_mem {sep : Char} {s : PyStr} (h : sep ∉ s) :
    splitOnChar sep s = [s] := by
  simp only [splitOnChar, List.splitOn]
  exact List.splitOnP_eq_single _ _ (fun x hx => by simp only [beq_iff_eq]; rintro rfl; exact h hx)

theorem escapeChar_ne_nil (c : Char) : escapeChar c ≠ [] := by
  unfold escapeChar
  split_ifs <;> simp

theorem pyEscape_nil : pyEscape [] = [] := rfl

theorem pyEscape_cons (c : Char) (s : PyStr) :
    pyEscape (c :: s) = escapeChar c ++ pyEscape s := by
  simp [pyEscape]

theorem pyEscape_append (s t : PyStr) :
    pyEscape (s ++ t) = pyEscape s ++ pyEscape t := by
  simp [pyEscape]

theorem mem_pyEscape {d : Char} {s : PyStr} (h : d ∈ pyEscape s) :
    ∃ c ∈ s, d ∈ escapeChar c := by
  simp only [pyEscape, List.mem_flatten, List.mem_map] at h
  obtain ⟨l, ⟨c, hc, rfl⟩, hd⟩ := h
  exact ⟨c, hc, hd⟩

theorem cr_not_mem_escapeChar {c : Char} (hc : c ≠ '\r') : '\r' ∉ escapeChar c := by
  unfold escapeChar
  split_ifs with h1 h2 h3
  · decide
  · decide
  · decide
  · simpa using fun h => hc h.symm

theorem cr_not_mem_pyEscape {s : PyStr} (h : '\r' ∉ s) : '\r' ∉ pyEscape s := by
  intro hmem
  obtain ⟨c, hc, hd⟩ := mem_pyEscape hmem
  exact cr_not_mem_escapeChar (fun hcr => h (hcr ▸ hc)) hd

theorem getLast?_escapeChar_star (c : Char) :
    ((escapeChar c).getLast? = some '*') ↔ c = '*' := by
  unfold escapeChar
  split_ifs with h1 h2 h3 <;> simp_all

theorem endsStar_pyEscape (s : PyStr) : endsStar (pyEscape s) = endsStar s := by
  induction s using List.reverseRecOn with
  | nil => rfl
  | append_singleton xs c _ =>
    rw [pyEscape_append]
    simp only [endsStar]
    have h1 : pyEscape [c] = escapeChar c := by simp [pyEscape]
    rw [h1]
    rw [List.getLast?_append_of_ne_nil _ (escapeChar_ne_nil c)]
    rw [List.getLast?_append_of_ne_nil _ (by simp : ([c] : PyStr) ≠ [])]
    by_cases hc : c = '*'
    · subst hc
      rw [(getLast?_escapeChar_star '*').2 rfl]
      simp
    · have h2 : (escapeChar c).getLast? ≠ some '*' :=
        fun h => hc ((getLast?_escapeChar_star c).1 h)
      rw [beq_eq_false_iff_ne.2 h2, beq_eq_false_iff_ne.2 (by simpa using hc)]

theorem escapeChar_eq_of_inert {c : Char} (h : escapeInert c) : escapeChar c = [c] := by
  obtain ⟨h1, h2, h3⟩ := h
  simp [escapeChar, h1, h2, h3]

theorem pyEscape_eq_of_inert {s : PyStr} (h : ∀ c ∈ s, escapeInert c) : pyEscape s = s := by
  induction s with
  | nil => rfl
  | cons c cs ih =>
    rw [pyEscape_cons, escapeChar_eq_of_inert (h c (List.mem_cons_self c cs)),
      ih (fun d hd => h d (List.mem_cons_of_mem c hd))]
    rfl

theorem pyEscape_joinChar_cr (ls : List PyStr) :
    pyEscape (joinChar '\r' ls) = joinChar '\r' (ls.map pyEscape) := by
  induction ls with
  | nil => rfl
  | cons l ls ih =>
    cases ls with
    | nil => simp [joinChar, List.intercalate]
    | cons m ms =>
      have h1 : joinChar '\r' (l :: m :: ms) = l ++ '\r' :: joinChar '\r' (m :: ms) := by
        simp [joinChar, List.intercalate, List.intersperse]
      have h2 : joinChar '\r' ((l :: m :: ms).map pyEscape)
          = pyEscape l ++ '\r' :: joinChar '\r' ((m :: ms).map pyEscape) := by
        simp [joinChar, List.intercalate, List.intersperse]
      rw [h1, h2, ← ih]
      have h3 : (l ++ '\r' :: joinChar '\r' (m :: ms)) = l ++ ['\r'] ++ joinChar '\r' (m :: ms) := by
        simp
      rw [h3, pyEscape_append, pyEscape_append]
      have h4 : pyEscape ['\r'] = ['\r'] := rfl
      rw [h4]
      simp

theorem starredFirst_sortStarredFirst (ls : List PyStr) :
    starredFirst (sortStarredFirst ls) := by
  unfold starredFirst sortStarredFirst
  rw [List.pairwise_append]
  refine ⟨?_, ?_, ?_⟩
  · exact List.pairwise_of_forall_mem_list
      (fun x hx _ _ _ => (List.mem_filter.1 hx).2)
  · exact List.pairwise_of_forall_mem_list
      (fun x hx y hy hstar => absurd hstar (by simpa using (List.mem_filter.1 hy).2))
  · intro x hx y _ _
    exact (List.mem_filter.1 hx).2

theorem mem_sortStarredFirst {x : PyStr} {ls : List PyStr} :
    x ∈ sortStarredFirst ls ↔ x ∈ ls := by
  unfold sortStarredFirst
  constructor
  · intro h
    rcases List.mem_append.1 h with h | h
    · exact (List.mem_filter.1 h).1
    · exact (List.mem_filter.1 h).1
  · intro h
    by_cases hs : endsStar x
    · exact List.mem_append.2 (Or.inl (List.mem_filter.2 ⟨h, hs⟩))
    · exact List.mem_append.2 (Or.inr (List.mem_filter.2 ⟨h, by simpa using hs⟩))

theorem sortStarredFirst_ne_nil {l : PyStr} {ls : List PyStr} :
    sortStarredFirst (l :: ls) ≠ [] := by
  intro h
  have hm : l ∈ sortStarredFirst (l :: ls) :=
    mem_sortStarredFirst.2 (List.mem_cons_self l ls)
  rw [h] at hm
  exact List.not_mem_nil l hm

theorem starredFirst_map_pyEscape {ls : List PyStr} (h : starredFirst ls) :
    starredFirst (ls.map pyEscape) := by
  unfold starredFirst at h ⊢
  rw [List.pairwise_map]
  exact h.imp (fun {x y} hxy hy => by
    rw [endsStar_pyEscape] at hy ⊢
    exact hxy hy)

/-- Splitting the merged label string recovers the sorted label list,
elementwise escaped, provided the new label contains no carriage return. -/
theorem splitOnChar_mergedLabelStr {cur l : PyStr} (hl : '\r' ∉ l) :
    splitOnChar '\r' (mergedLabelStr cur l)
      = (sortStarredFirst (l :: (splitOnChar '\r' cur).filter
          (fun x => ¬ (stripAllStars l).isPrefixOf x))).map pyEscape := by
  unfold mergedLabelStr
  rw [pyEscape_joinChar_cr]
  apply splitOnChar_joinChar
  · simpa using sortStarredFirst_ne_nil
  · intro x hx
    rcases List.mem_map.1 hx with ⟨y, hy, rfl⟩
    rcases List.mem_cons.1 (mem_sortStarredFirst.1 hy) with rfl | hyf
    · exact cr_not_mem_pyEscape hl
    · exact cr_not_mem_pyEscape
        (mem_splitOnChar (List.mem_filter.1 hyf).1).2

/-! ### Basic facts about the graph operations -/

theorem edges_addNode (resolve : PyStr → PyStr) (g : GraphState) (name : PyStr)
    (lbl fill shape : Option PyStr) :
    (addNode resolve g name lbl fill shape).edges = g.edges := by
  unfold addNode
  split <;> rfl

theorem edges_updEdge (g : GraphState) (a b : PyStr) (f : PEdge → PEdge) :
    (updEdge g a b f).edges
      = g.edges.map (fun e => if e.src = a ∧ e.dst = b then f e else e) := rfl

theorem getEdge_eq_none_iff {g : GraphState} {a b : PyStr} :
    getEdge g a b = none ↔ ∀ e ∈ g.edges, ¬ (e.src = a ∧ e.dst = b) := by
  unfold getEdge
  rw [List.find?_eq_none]
  constructor
  · intro h e he hk
    exact absurd (decide_eq_true hk) (by simpa using h e he)
  · intro h e he
    simpa using h e he

theorem getEdge_mem {g : GraphState} {a b : PyStr} {e : PEdge}
    (h : getEdge g a b = some e) : e ∈ g.edges ∧ e.src = a ∧ e.dst = b := by
  unfold getEdge at h
  have hp := List.find?_some h
  exact ⟨List.mem_of_find?_eq_some h, by simpa using hp⟩

theorem getEdge_isSome {g : GraphState} {a b : PyStr}
    (h : ∃ e ∈ g.edges, e.src = a ∧ e.dst = b) : (getEdge g a b).isSome := by
  unfold getEdge
  rw [List.find?_isSome]
  obtain ⟨e, he, hk⟩ := h
  exact ⟨e, he, decide_eq_true hk⟩

theorem find?_updList (a b : PyStr) (f : PEdge → PEdge)
    (hf : ∀ e, (f e).src = e.src ∧ (f e).dst = e.dst) (es : List PEdge) :
    (es.map (fun e => if e.src = a ∧ e.dst = b then f e else e)).find?
        (fun e => decide (e.src = a ∧ e.dst = b))
      = (es.find? (fun e => decide (e.src = a ∧ e.dst = b))).map
          (fun e => if e.src = a ∧ e.dst = b then f e else e) := by
  induction es with
  | nil => rfl
  | cons e es ih =>
    by_cases hk : e.src = a ∧ e.dst = b
    · rw [List.map_cons, if_pos hk]
      have h1 : (f e).src = a ∧ (f e).dst = b :=
        ⟨(hf e).1.trans hk.1, (hf e).2.trans hk.2⟩
      have hfind1 : List.find? (fun x => decide (x.src = a ∧ x.dst = b))
          (f e :: List.map (fun x => if x.src = a ∧ x.dst = b then f x else x) es)
            = some (f e) :=
        List.find?_cons_of_pos _ (decide_eq_true h1)
      have hfind2 : List.find? (fun x => decide (x.src = a ∧ x.dst = b)) (e :: es)
          = some e :=
        List.find?_cons_of_pos _ (decide_eq_true hk)
      rw [hfind1, hfind2, Option.map_some', if_pos hk]
    · rw [List.map_cons, if_neg hk]
      have hfind1 : List.find? (fun x => decide (x.src = a ∧ x.dst = b))
          (e :: List.map (fun x => if x.src = a ∧ x.dst = b then f x else x) es)
            = List.find? (fun x => decide (x.src = a ∧ x.dst = b))
                (List.map (fun x => if x.src = a ∧ x.dst = b then f x else x) es) :=
        List.find?_cons_of_neg _ (by simp only [decide_eq_true_eq]; exact hk)
      have hfind2 : List.find? (fun x => decide (x.src = a ∧ x.dst = b)) (e :: es)
          = List.find? (fun x => decide (x.src = a ∧ x.dst = b)) es :=
        List.find?_cons_of_neg _ (by simp only [decide_eq_true_eq]; exact hk)
      rw [hfind1, hfind2]
      exact ih

theorem getEdge_updEdge_self (g : GraphState) (a b : PyStr) (f : PEdge → PEdge)
    (hf : ∀ e, (f e).src = e.src ∧ (f e).dst = e.dst) :
    getEdge (updEdge g a b f) a b = (getEdge g a b).map
      (fun e => if e.src = a ∧ e.dst = b then f e else e) :=
  find?_updList a b f hf g.edges

theorem mem_updEdge {g : GraphState} {a b : PyStr} {f : PEdge → PEdge} {x : PEdge}
    (hx : x ∈ (updEdge g a b f).edges) :
    ∃ e ∈ g.edges, x = if e.src = a ∧ e.dst = b then f e else e := by
  rw [edges_updEdge] at hx
  rcases List.mem_map.1 hx with ⟨e, he, rfl⟩
  exact ⟨e, he, rfl⟩

/-- Exhaustive description of what `add_edge` can do to the state: create a
fresh edge object for an absent ordered pair, leave the state unchanged, or
rewrite the label of the stored edge to the merge result. -/
theorem addEdge_cases (g : GraphState) (a b : PyStr) (lbl : Option PyStr) :
    (getEdge g a b = none ∧ addEdge g a b lbl
        = { g with edges := g.edges
            ++ [⟨a, b, lbl, "7".toList, "true".toList, none, none⟩] })
    ∨ addEdge g a b lbl = g
    ∨ (∃ l cur, lbl = some l ∧ addEdge g a b lbl
        = updEdge g a b (fun e0 => { e0 with label := some (mergedLabelStr cur l) })) := by
  rcases hge : getEdge g a b with _ | e
  · left
    refine ⟨rfl, ?_⟩
    unfold addEdge
    rw [hge]
  · right
    rcases lbl with _ | l
    · left
      unfold addEdge
      rw [hge]
    · by_cases hl : l = []
      · left
        unfold addEdge
        rw [hge]
        simp [hl]
      · rcases hel : e.label with _ | cur
        · left
          unfold addEdge
          rw [hge]
          simp [hl, hel]
        · by_cases hmem : (stripAllStars l ++ ['*']) ∈ splitOnChar '\r' cur
          · left
            unfold addEdge
            rw [hge]
            simp [hl, hel, hmem]
          · right
            refine ⟨l, cur, rfl, ?_⟩
            unfold addEdge
            rw [hge]
            simp [hl, hel, hmem]

/-! ### Invariant: at most one edge object per ordered endpoint pair (C5) -/

theorem distinctEdgeKeys_addNode {g : GraphState} (h : distinctEdgeKeys g)
    (resolve : PyStr → PyStr) (name : PyStr) (lbl fill shape : Option PyStr) :
    distinctEdgeKeys (addNode resolve g name lbl fill shape) := by
  unfold distinctEdgeKeys
  rw [edges_addNode]
  exact h

theorem distinctEdgeKeys_updEdge {g : GraphState} (h : distinctEdgeKeys g)
    (a b : PyStr) (f : PEdge → PEdge)
    (hf : ∀ e, (f e).src = e.src ∧ (f e).dst = e.dst) :
    distinctEdgeKeys (updEdge g a b f) := by
  unfold distinctEdgeKeys
  rw [edges_updEdge, List.pairwise_map]
  refine h.imp ?_
  intro e1 e2 hne hk
  apply hne
  have k1 : (if e1.src = a ∧ e1.dst = b then f e1 else e1).src = e1.src ∧
      (if e1.src = a ∧ e1.dst = b then f e1 else e1).dst = e1.dst := by
    split
    · exact hf e1
    · exact ⟨rfl, rfl⟩
  have k2 : (if e2.src = a ∧ e2.dst = b then f e2 else e2).src = e2.src ∧
      (if e2.src = a ∧ e2.dst = b then f e2 else e2).dst = e2.dst := by
    split
    · exact hf e2
    · exact ⟨rfl, rfl⟩
  rw [k1.1, k1.2, k2.1, k2.2] at hk
  exact hk

theorem distinctEdgeKeys_addEdge {g : GraphState} (h : distinctEdgeKeys g)
    (a b : PyStr) (lbl : Option PyStr) : distinctEdgeKeys (addEdge g a b lbl) := by
  rcases addEdge_cases g a b lbl with ⟨hnone, heq⟩ | heq | ⟨l, cur, _, heq⟩
  · rw [heq]
    exact List.pairwise_append.2 ⟨h, List.pairwise_singleton _ _, by
      intro e1 he1 e2 he2
      rcases List.mem_singleton.1 he2 with rfl
      intro hk
      exact (getEdge_eq_none_iff.1 hnone e1 he1) ⟨hk.1, hk.2⟩⟩
  · rw [heq]; exact h
  · rw [heq]
    exact distinctEdgeKeys_updEdge h a b _ (fun _ => ⟨rfl, rfl⟩)

theorem distinctEdgeKeys_setEdgeStyle {g : GraphState} (h : distinctEdgeKeys g)
    (a b : PyStr) (v : PyStr) : distinctEdgeKeys (setEdgeStyle g a b v) :=
  distinctEdgeKeys_updEdge h a b _ (fun _ => ⟨rfl, rfl⟩)

theorem distinctEdgeKeys_setEdgeColor {g : GraphState} (h : distinctEdgeKeys g)
    (a b : PyStr) (v : PyStr) : distinctEdgeKeys (setEdgeColor g a b v) :=
  distinctEdgeKeys_updEdge h a b _ (fun _ => ⟨rfl, rfl⟩)

theorem distinctEdgeKeys_styleResolve {g : GraphState} (h : distinctEdgeKeys g)
    (first isL : Bool) (color : PyStr) (a b : PyStr) :
    distinctEdgeKeys (styleResolve first isL color g a b) := by
  unfold styleResolve
  split
  · exact distinctEdgeKeys_setEdgeColor (distinctEdgeKeys_setEdgeStyle h a b _) a b _
  · split
    · exact distinctEdgeKeys_setEdgeColor (distinctEdgeKeys_setEdgeStyle h a b _) a b _
    · exact h

theorem distinctEdgeKeys_tokenStep {st : BuildSt} (h : distinctEdgeKeys st.g)
    (resolve : PyStr → PyStr) (first : Bool) (color : PyStr) (lastChar : Char) (t : PyStr) :
    distinctEdgeKeys (tokenStep resolve first color lastChar st t).g := by
  unfold tokenStep
  apply distinctEdgeKeys_styleResolve
  split
  all_goals split
  all_goals apply distinctEdgeKeys_addEdge
  all_goals split
  all_goals apply distinctEdgeKeys_addNode h

theorem distinctEdgeKeys_foldl (resolve : PyStr → PyStr) (first : Bool) (color : PyStr)
    (lastChar : Char) :
    ∀ (toks : List PyStr) (st : BuildSt), distinctEdgeKeys st.g →
      distinctEdgeKeys ((toks.foldl (tokenStep resolve first color lastChar) st).g)
  | [], _, h => h
  | t :: ts, st, h => by
      rw [List.foldl_cons]
      exact distinctEdgeKeys_foldl resolve first color lastChar ts _
        (distinctEdgeKeys_tokenStep h resolve first color lastChar t)

theorem distinctEdgeKeys_processPath {resolve : PyStr → PyStr} {rrcFull : PyStr}
    {first : Bool} {color : PyStr} {g : GraphState} {p : PyStr} {g1 : GraphState} {tok : PyStr}
    (h : distinctEdgeKeys g)
    (hp : processPath resolve rrcFull first color g p = some (g1, tok)) :
    distinctEdgeKeys g1 := by
  unfold processPath at hp
  rcases hlast : p.getLast? with _ | lc
  · rw [hlast] at hp
    exact absurd hp (by simp)
  · rw [hlast] at hp
    simp only [Option.some.injEq, Prod.mk.injEq] at hp
    have := distinctEdgeKeys_foldl resolve first color lc (splitOnChar ' ' p)
      ⟨g, rrcFull, false, []⟩ h
    rw [hp.1] at this
    exact this

theorem distinctEdgeKeys_buildPaths {resolve : PyStr → PyStr} {rrcFull : PyStr}
    {colorOf : Nat → PyStr} :
    ∀ {paths : List PyStr} {i : Nat} {g : GraphState} {lt : Option PyStr}
      {g1 : GraphState} {lt1 : Option PyStr}, distinctEdgeKeys g →
      buildPaths resolve rrcFull colorOf paths i g lt = some (g1, lt1) →
      distinctEdgeKeys g1 := by
  intro paths
  induction paths with
  | nil =>
    intro i g lt g1 lt1 h hb
    unfold buildPaths at hb
    simp only [Option.some.injEq, Prod.mk.injEq] at hb
    rw [← hb.1]
    exact h
  | cons p rest ih =>
    intro i g lt g1 lt1 h hb
    unfold buildPaths at hb
    rcases hp : processPath resolve rrcFull (i = 0) (colorOf i) g p with _ | ⟨g2, tok⟩
    · rw [hp] at hb
      exact absurd hb (by simp)
    · rw [hp] at hb
      exact ih (distinctEdgeKeys_processPath h hp) hb

/-! ### Invariant: a highlighted (bold red) edge stays highlighted (C8) -/

theorem boldRedAt_addNode {g : GraphState} {a b : PyStr} (h : boldRedAt g a b)
    (resolve : PyStr → PyStr) (name : PyStr) (lbl fill shape : Option PyStr) :
    boldRedAt (addNode resolve g name lbl fill shape) a b := by
  unfold boldRedAt
  rw [edges_addNode]
  exact h

/-- Updates that keep endpoints, and keep bold-red edges bold-red, preserve
the invariant. -/
theorem boldRedAt_updEdge {g : GraphState} {a b : PyStr} (h : boldRedAt g a b)
    (x y : PyStr) (f : PEdge → PEdge)
    (hf : ∀ e, (f e).src = e.src ∧ (f e).dst = e.dst)
    (hbr : ∀ e, e.src = a → e.dst = b →
      (e.style = some "bold".toList ∧ e.color = some "red".toList) →
      ((f e).style = some "bold".toList ∧ (f e).color = some "red".toList)) :
    boldRedAt (updEdge g x y f) a b := by
  obtain ⟨⟨e0, he0, hk0⟩, hall⟩ := h
  constructor
  · refine ⟨if e0.src = x ∧ e0.dst = y then f e0 else e0, ?_, ?_⟩
    · rw [edges_updEdge]
      exact List.mem_map_of_mem _ he0
    · split
      · rw [(hf e0).1, (hf e0).2]; exact hk0
      · exact hk0
  · intro e' he' hsrc hdst
    obtain ⟨e, he, rfl⟩ := mem_updEdge he'
    by_cases hk : e.src = x ∧ e.dst = y
    · rw [if_pos hk] at hsrc hdst ⊢
      rw [(hf e).1] at hsrc
      rw [(hf e).2] at hdst
      exact hbr e hsrc hdst (hall e he hsrc hdst)
    · rw [if_neg hk] at hsrc hdst ⊢
      exact hall e he hsrc hdst

theorem boldRedAt_setBoldRed {g : GraphState} {a b : PyStr} (h : boldRedAt g a b)
    (x y : PyStr) :
    boldRedAt (setEdgeColor (setEdgeStyle g x y "bold".toList) x y "red".toList) a b := by
  apply boldRedAt_updEdge (x := x) (y := y)
  · apply boldRedAt_updEdge (x := x) (y := y) h
    · exact fun e => ⟨rfl, rfl⟩
    · intro e _ _ hbr
      exact ⟨rfl, hbr.2⟩
  · exact fun e => ⟨rfl, rfl⟩
  · intro e _ _ hbr
    exact ⟨hbr.1, rfl⟩

theorem boldRedAt_getEdge_style {g : GraphState} {a b : PyStr} (h : boldRedAt g a b) :
    ((getEdge g a b).bind (fun e => e.style)) = some "bold".toList := by
  obtain ⟨hex, hall⟩ := h
  rcases hge : getEdge g a b with _ | e
  · have := getEdge_isSome hex
    rw [hge] at this
    exact absurd this (by simp)
  · obtain ⟨hmem, hsrc, hdst⟩ := getEdge_mem hge
    simpa using (hall e hmem hsrc hdst).1

/-- An endpoint-preserving update keyed on a different ordered pair leaves
the invariant untouched. -/
theorem boldRedAt_updEdge_ne {g : GraphState} {a b : PyStr} (h : boldRedAt g a b)
    (x y : PyStr) (f : PEdge → PEdge)
    (hf : ∀ e, (f e).src = e.src ∧ (f e).dst = e.dst)
    (hne : ¬ (x = a ∧ y = b)) : boldRedAt (updEdge g x y f) a b := by
  obtain ⟨⟨e0, he0, hk0⟩, hall⟩ := h
  constructor
  · refine ⟨if e0.src = x ∧ e0.dst = y then f e0 else e0, ?_, ?_⟩
    · rw [edges_updEdge]
      exact List.mem_map_of_mem _ he0
    · have hcond : ¬ (e0.src = x ∧ e0.dst = y) := by
        intro hc
        exact hne ⟨hc.1.symm.trans hk0.1, hc.2.symm.trans hk0.2⟩
      rw [if_neg hcond]
      exact hk0
  · intro e' he' hsrc hdst
    obtain ⟨e, he, rfl⟩ := mem_updEdge he'
    by_cases hk : e.src = x ∧ e.dst = y
    · rw [if_pos hk] at hsrc hdst ⊢
      rw [(hf e).1] at hsrc
      rw [(hf e).2] at hdst
      exact absurd ⟨hk.1.symm.trans hsrc, hk.2.symm.trans hdst⟩ hne
    · rw [if_neg hk] at hsrc hdst ⊢
      exact hall e he hsrc hdst

theorem boldRedAt_styleResolve {g : GraphState} {a b : PyStr} (h : boldRedAt g a b)
    (first isL : Bool) (color : PyStr) (x y : PyStr) :
    boldRedAt (styleResolve first isL color g x y) a b := by
  unfold styleResolve
  split
  · exact boldRedAt_setBoldRed h x y
  · split
    · rename_i hguard
      by_cases hxy : x = a ∧ y = b
      · exfalso
        obtain ⟨rfl, rfl⟩ := hxy
        exact hguard (boldRedAt_getEdge_style h)
      · unfold setEdgeColor setEdgeStyle
        exact boldRedAt_updEdge_ne
          (boldRedAt_updEdge_ne h x y (fun e => { e with style := some "dashed".toList })
            (fun e => ⟨rfl, rfl⟩) hxy)
          x y (fun e => { e with color := some color }) (fun e => ⟨rfl, rfl⟩) hxy
    · exact h

theorem boldRedAt_addEdge {g : GraphState} {a b : PyStr} (h : boldRedAt g a b)
    (x y : PyStr) (lbl : Option PyStr) : boldRedAt (addEdge g x y lbl) a b := by
  rcases addEdge_cases g x y lbl with ⟨hnone, heq⟩ | heq | ⟨l, cur, _, heq⟩
  · rw [heq]
    obtain ⟨⟨e0, he0, hk0⟩, hall⟩ := h
    have hne : ¬ (x = a ∧ y = b) := by
      intro hc
      exact (getEdge_eq_none_iff.1 hnone e0 he0) ⟨hk0.1.trans hc.1.symm, hk0.2.trans hc.2.symm⟩
    constructor
    · exact ⟨e0, List.mem_append_left _ he0, hk0⟩
    · intro e' he' hsrc hdst
      rcases List.mem_append.1 he' with he' | he'
      · exact hall e' he' hsrc hdst
      · rcases List.mem_singleton.1 he' with rfl
        exact absurd ⟨hsrc, hdst⟩ hne
  · rw [heq]; exact h
  · rw [heq]
    exact boldRedAt_updEdge h x y _ (fun e => ⟨rfl, rfl⟩)
      (fun e _ _ hbr => ⟨hbr.1, hbr.2⟩)

theorem boldRedAt_tokenStep {st : BuildSt} {a b : PyStr} (h : boldRedAt st.g a b)
    (resolve : PyStr → PyStr) (first : Bool) (color : PyStr) (lastChar : Char) (t : PyStr) :
    boldRedAt (tokenStep resolve first color lastChar st t).g a b := by
  unfold tokenStep
  apply boldRedAt_styleResolve
  split
  all_goals split
  all_goals apply boldRedAt_addEdge
  all_goals split
  all_goals apply boldRedAt_addNode h

theorem boldRedAt_foldl (resolve : PyStr → PyStr) (first : Bool) (color : PyStr)
    (lastChar : Char) :
    ∀ (toks : List PyStr) (st : BuildSt) {a b : PyStr}, boldRedAt st.g a b →
      boldRedAt ((toks.foldl (tokenStep resolve first color lastChar) st).g) a b
  | [], _, _, _, h => h
  | t :: ts, st, a, b, h => by
      rw [List.foldl_cons]
      exact boldRedAt_foldl resolve first color lastChar ts _
        (boldRedAt_tokenStep h resolve first color lastChar t)

theorem boldRedAt_processPath {resolve : PyStr → PyStr} {rrcFull : PyStr}
    {first : Bool} {color : PyStr} {g : GraphState} {p : PyStr} {g1 : GraphState}
    {tok : PyStr} {a b : PyStr} (h : boldRedAt g a b)
    (hp : processPath resolve rrcFull first color g p = some (g1, tok)) :
    boldRedAt g1 a b := by
  unfold processPath at hp
  rcases hlast : p.getLast? with _ | lc
  · rw [hlast] at hp
    exact absurd hp (by simp)
  · rw [hlast] at hp
    simp only [Option.some.injEq, Prod.mk.injEq] at hp
    have := boldRedAt_foldl resolve first color lc (splitOnChar ' ' p)
      ⟨g, rrcFull, false, []⟩ h
    rw [hp.1] at this
    exact this

theorem boldRedAt_buildPaths {resolve : PyStr → PyStr} {rrcFull : PyStr}
    {colorOf : Nat → PyStr} :
    ∀ {paths : List PyStr} {i : Nat} {g : GraphState} {lt : Option PyStr}
      {g1 : GraphState} {lt1 : Option PyStr} {a b : PyStr}, boldRedAt g a b →
      buildPaths resolve rrcFull colorOf paths i g lt = some (g1, lt1) →
      boldRedAt g1 a b := by
  intro paths
  induction paths with
  | nil =>
    intro i g lt g1 lt1 a b h hb
    unfold buildPaths at hb
    simp only [Option.some.injEq, Prod.mk.injEq] at hb
    rw [← hb.1]
    exact h
  | cons p rest ih =>
    intro i g lt g1 lt1 a b h hb
    unfold buildPaths at hb
    rcases hp : processPath resolve rrcFull (i = 0) (colorOf i) g p with _ | ⟨g2, tok⟩
    · rw [hp] at hb
      exact absurd hb (by simp)
    · rw [hp] at hb
      exact ih (boldRedAt_processPath h hp) hb

/-! ### Invariant: starred label entries precede unstarred ones (C6) -/

theorem graphLabelsOk_addNode {g : GraphState} (h : graphLabelsOk g)
    (resolve : PyStr → PyStr) (name : PyStr) (lbl fill shape : Option PyStr) :
    graphLabelsOk (addNode resolve g name lbl fill shape) := by
  unfold graphLabelsOk
  rw [edges_addNode]
  exact h

theorem graphLabelsOk_updEdge_keepLabel {g : GraphState} (h : graphLabelsOk g)
    (a b : PyStr) (f : PEdge → PEdge) (hf : ∀ e, (f e).label = e.label) :
    graphLabelsOk (updEdge g a b f) := by
  intro e' he' cur hcur
  obtain ⟨e, he, rfl⟩ := mem_updEdge he'
  apply h e he cur
  by_cases hk : e.src = a ∧ e.dst = b
  · rw [if_pos hk] at hcur
    rw [← hf e]
    exact hcur
  · rw [if_neg hk] at hcur
    exact hcur

theorem starredFirst_mergedLabelStr {cur l : PyStr} (hl : '\r' ∉ l) :
    starredFirst (splitOnChar '\r' (mergedLabelStr cur l)) := by
  rw [splitOnChar_mergedLabelStr hl]
  exact starredFirst_map_pyEscape (starredFirst_sortStarredFirst _)

theorem graphLabelsOk_addEdge {g : GraphState} (h : graphLabelsOk g)
    (a b : PyStr) (lbl : Option PyStr)
    (hlbl : ∀ l, lbl = some l → '\r' ∉ l) :
    graphLabelsOk (addEdge g a b lbl) := by
  rcases addEdge_cases g a b lbl with ⟨hnone, heq⟩ | heq | ⟨l, cur0, hsome, heq⟩
  · rw [heq]
    intro e' he' cur hcur
    rcases List.mem_append.1 he' with he' | he'
    · exact h e' he' cur hcur
    · rcases List.mem_singleton.1 he' with rfl
      simp only [] at hcur
      have hlcur : lbl = some cur := hcur
      have hcr : '\r' ∉ cur := hlbl cur hlcur
      rw [splitOnChar_of_not_mem hcr]
      exact List.pairwise_singleton _ _
  · rw [heq]; exact h
  · rw [heq]
    intro e' he' cur hcur
    obtain ⟨e, he, rfl⟩ := mem_updEdge he'
    by_cases hk : e.src = a ∧ e.dst = b
    · rw [if_pos hk] at hcur
      simp only [Option.some.injEq] at hcur
      rw [← hcur]
      exact starredFirst_mergedLabelStr (hlbl l hsome)
    · rw [if_neg hk] at hcur
      exact h e he cur hcur

theorem graphLabelsOk_styleResolve {g : GraphState} (h : graphLabelsOk g)
    (first isL : Bool) (color : PyStr) (x y : PyStr) :
    graphLabelsOk (styleResolve first isL color g x y) := by
  unfold styleResolve setEdgeColor setEdgeStyle
  split
  · exact graphLabelsOk_updEdge_keepLabel
      (graphLabelsOk_updEdge_keepLabel h x y
        (fun e => { e with style := some "bold".toList }) (fun e => rfl))
      x y (fun e => { e with color := some "red".toList }) (fun e => rfl)
  · split
    · exact graphLabelsOk_updEdge_keepLabel
        (graphLabelsOk_updEdge_keepLabel h x y
          (fun e => { e with style := some "dashed".toList }) (fun e => rfl))
        x y (fun e => { e with color := some color }) (fun e => rfl)
    · exact h

theorem graphLabelsOk_addNode_ifStyle {g : GraphState} (h : graphLabelsOk g)
    (resolve : PyStr → PyStr) (first : Bool) (lastChar : Char) (t : PyStr) :
    graphLabelsOk (if (decide (t = [lastChar])) = true
      then addNode resolve g t none (some fillRed) (some boxShape)
      else addNode resolve g t none (some (if first = true then fillRed else fillWhite)) none) := by
  split
  · exact graphLabelsOk_addNode h resolve t none (some fillRed) (some boxShape)
  · exact graphLabelsOk_addNode h resolve t none _ none

theorem graphLabelsOk_tokenStep {st : BuildSt} (h : graphLabelsOk st.g)
    (resolve : PyStr → PyStr) (first : Bool) (color : PyStr) (lastChar : Char) {t : PyStr}
    (ht : '\r' ∉ t) (hhl : '\r' ∉ st.hopLabel) :
    graphLabelsOk (tokenStep resolve first color lastChar st t).g := by
  have hmk : '\r' ∉ mkHopLabel first t := by
    unfold mkHopLabel
    split
    · intro hm
      rcases List.mem_append.1 hm with hm | hm
      · exact ht hm
      · simp at hm
    · exact ht
  unfold tokenStep
  apply graphLabelsOk_styleResolve
  split
  · split
    · refine graphLabelsOk_addEdge ?_ _ _ _ ?_
      · exact graphLabelsOk_addNode_ifStyle h resolve first lastChar t
      · intro l hl
        simp only [Option.some.injEq] at hl
        rw [← hl]
        exact hhl
    · refine graphLabelsOk_addEdge ?_ _ _ _ ?_
      · exact graphLabelsOk_addNode_ifStyle h resolve first lastChar t
      · intro l hl
        exact absurd hl (by simp)
  · split
    · refine graphLabelsOk_addEdge ?_ _ _ _ ?_
      · exact graphLabelsOk_addNode_ifStyle h resolve first lastChar t
      · intro l hl
        simp only [Option.some.injEq] at hl
        rw [← hl]
        exact hmk
    · refine graphLabelsOk_addEdge ?_ _ _ _ ?_
      · exact graphLabelsOk_addNode_ifStyle h resolve first lastChar t
      · intro l hl
        exact absurd hl (by simp)

theorem tokenStep_hopLabel (resolve : PyStr → PyStr) (first : Bool) (color : PyStr)
    (lastChar : Char) (st : BuildSt) (t : PyStr) :
    (tokenStep resolve first color lastChar st t).hopLabel = [] := rfl

theorem graphLabelsOk_foldl (resolve : PyStr → PyStr) (first : Bool) (color : PyStr)
    (lastChar : Char) :
    ∀ (toks : List PyStr) (st : BuildSt), graphLabelsOk st.g → '\r' ∉ st.hopLabel →
      (∀ t ∈ toks, '\r' ∉ t) →
      graphLabelsOk ((toks.foldl (tokenStep resolve first color lastChar) st).g)
  | [], _, h, _, _ => h
  | t :: ts, st, h, hhl, htoks => by
      rw [List.foldl_cons]
      apply graphLabelsOk_foldl resolve first color lastChar ts
      · exact graphLabelsOk_tokenStep h resolve first color lastChar
          (htoks t (List.mem_cons_self t ts)) hhl
      · rw [tokenStep_hopLabel]
        simp
      · exact fun u hu => htoks u (List.mem_cons_of_mem t hu)

theorem graphLabelsOk_processPath {resolve : PyStr → PyStr} {rrcFull : PyStr}
    {first : Bool} {color : PyStr} {g : GraphState} {p : PyStr} {g1 : GraphState}
    {tok : PyStr} (h : graphLabelsOk g) (hcr : '\r' ∉ p)
    (hp : processPath resolve rrcFull first color g p = some (g1, tok)) :
    graphLabelsOk g1 := by
  unfold processPath at hp
  rcases hlast : p.getLast? with _ | lc
  · rw [hlast] at hp
    exact absurd hp (by simp)
  · rw [hlast] at hp
    simp only [Option.some.injEq, Prod.mk.injEq] at hp
    have := graphLabelsOk_foldl resolve first color lc (splitOnChar ' ' p)
      ⟨g, rrcFull, false, []⟩ h (by simp)
      (fun t htm hc => hcr ((mem_splitOnChar htm).1 _ hc))
    rw [hp.1] at this
    exact this

theorem graphLabelsOk_buildPaths {resolve : PyStr → PyStr} {rrcFull : PyStr}
    {colorOf : Nat → PyStr} :
    ∀ {paths : List PyStr} {i : Nat} {g : GraphState} {lt : Option PyStr}
      {g1 : GraphState} {lt1 : Option PyStr}, graphLabelsOk g →
      (∀ p ∈ paths, '\r' ∉ p) →
      buildPaths resolve rrcFull colorOf paths i g lt = some (g1, lt1) →
      graphLabelsOk g1 := by
  intro paths
  induction paths with
  | nil =>
    intro i g lt g1 lt1 h _ hb
    unfold buildPaths at hb
    simp only [Option.some.injEq, Prod.mk.injEq] at hb
    rw [← hb.1]
    exact h
  | cons p rest ih =>
    intro i g lt g1 lt1 h hcr hb
    unfold buildPaths at hb
    rcases hp : processPath resolve rrcFull (i = 0) (colorOf i) g p with _ | ⟨g2, tok⟩
    · rw [hp] at hb
      exact absurd hb (by simp)
    · rw [hp] at hb
      exact ih (graphLabelsOk_processPath h (hcr p (List.mem_cons_self p rest)) hp)
        (fun q hq => hcr q (List.mem_cons_of_mem p hq)) hb

/-- Destructuring of a successful `makeBgpmap` run: the path loop succeeded
with a last-visited token, and the result is the finalisation (target node,
final edge, bold red) of the loop's graph. -/
theorem makeBgpmap_eq_some {resolve : PyStr → PyStr} {target rrc location : PyStr}
    {paths : List PyStr} {colorOf : Nat → PyStr} {g : GraphState}
    (h : makeBgpmap resolve target rrc location paths colorOf = some g) :
    ∃ g1 tok, buildPaths resolve (rrc ++ " - ".toList ++ location) colorOf paths 0
        (addNode resolve graphState0 (rrc ++ " - ".toList ++ location)
          (some rrc) (some fillRed) (some boxShape)) none
      = some (g1, some tok) ∧
      g = setEdgeColor (setEdgeStyle
            (addEdge (addNode resolve g1 targetNodeName (some target)
              (some fillRed) (some boxShape)) tok targetNodeName none)
            tok targetNodeName "bold".toList) tok targetNodeName "red".toList := by
  unfold makeBgpmap at h
  simp only [] at h
  rcases hb : buildPaths resolve (rrc ++ " - ".toList ++ location) colorOf paths 0
      (addNode resolve graphState0 (rrc ++ " - ".toList ++ location)
        (some rrc) (some fillRed) (some boxShape)) none with _ | ⟨g1, lt⟩
  · rw [hb] at h
    exact absurd h (by simp)
  · rw [hb] at h
    rcases lt with _ | tok
    · exact absurd h (by simp)
    · simp only [Option.some.injEq] at h
      exact ⟨g1, tok, rfl, h.symm⟩

/-- C5: every graph produced by `make_bgpmap` holds at most one edge object
per ordered endpoint pair; a path revisiting the hop merges into that
object (the `add_edge` dictionary branch) instead of creating another. -/
theorem c5_single_edge_per_pair (resolve : PyStr → PyStr) (target rrc location : PyStr)
    (paths : List PyStr) (colorOf : Nat → PyStr) (g : GraphState)
    (h : makeBgpmap resolve target rrc location paths colorOf = some g) :
    distinctEdgeKeys g := by
  obtain ⟨g1, tok, hb, rfl⟩ := makeBgpmap_eq_some h
  have h0 : distinctEdgeKeys (addNode resolve graphState0
      (rrc ++ " - ".toList ++ location) (some rrc) (some fillRed) (some boxShape)) :=
    distinctEdgeKeys_addNode (by exact List.Pairwise.nil) resolve _ (some rrc) (some fillRed) (some boxShape)
  have h1 := distinctEdgeKeys_buildPaths h0 hb
  exact distinctEdgeKeys_setEdgeColor
    (distinctEdgeKeys_setEdgeStyle
      (distinctEdgeKeys_addEdge
        (distinctEdgeKeys_addNode h1 resolve targetNodeName (some target)
          (some fillRed) (some boxShape)) tok targetNodeName none)
      tok targetNodeName "bold".toList)
    tok targetNodeName "red".toList

/-- Witness for C5: a concrete two-path build has pairwise distinct edge
keys. -/
theorem c5_single_edge_per_pair_witness :
    distinctEdgeKeys ((makeBgpmap rsvX "193.0.0.0/21".toList "RRC01".toList
      "Amsterdam".toList ["100 200".toList, "100 300".toList] colorX).getD graphState0) :=
  c5_single_edge_per_pair rsvX "193.0.0.0/21".toList "RRC01".toList "Amsterdam".toList
    ["100 200".toList, "100 300".toList] colorX _ (by rfl)

/-- C8: once an edge of a graph under construction is highlighted (bold,
red), every later operation of the build — a token step, a whole path, the
rest of the path loop, or the final target-edge block — keeps it bold and
red; no merge or style-resolution call reverts it to dashed or recolours
it. -/
theorem c8_bold_style_monotonic :
    (∀ (resolve : PyStr → PyStr) (first : Bool) (color : PyStr) (lastChar : Char)
        (st : BuildSt) (t : PyStr) (a b : PyStr), boldRedAt st.g a b →
        boldRedAt (tokenStep resolve first color lastChar st t).g a b) ∧
    (∀ (resolve : PyStr → PyStr) (rrcFull : PyStr) (first : Bool) (color : PyStr)
        (g : GraphState) (p : PyStr) (g1 : GraphState) (tok : PyStr) (a b : PyStr),
        boldRedAt g a b → processPath resolve rrcFull first color g p = some (g1, tok) →
        boldRedAt g1 a b) ∧
    (∀ (resolve : PyStr → PyStr) (rrcFull : PyStr) (colorOf : Nat → PyStr)
        (paths : List PyStr) (i : Nat) (g : GraphState) (lt : Option PyStr)
        (g1 : GraphState) (lt1 : Option PyStr) (a b : PyStr),
        boldRedAt g a b → buildPaths resolve rrcFull colorOf paths i g lt = some (g1, lt1) →
        boldRedAt g1 a b) ∧
    (∀ (resolve : PyStr → PyStr) (target : PyStr) (g : GraphState) (tok : PyStr)
        (a b : PyStr), boldRedAt g a b →
        boldRedAt (setEdgeColor (setEdgeStyle
          (addEdge (addNode resolve g targetNodeName (some target) (some fillRed)
            (some boxShape)) tok targetNodeName none)
          tok targetNodeName "bold".toList) tok targetNodeName "red".toList) a b) := by
  refine ⟨?_, ?_, ?_, ?_⟩
  · intro resolve first color lc st t a b h
    exact boldRedAt_tokenStep h resolve first color lc t
  · intro resolve rrcFull first color g p g1 tok a b h hp
    exact boldRedAt_processPath h hp
  · intro resolve rrcFull colorOf paths i g lt g1 lt1 a b h hb
    exact boldRedAt_buildPaths h hb
  · intro resolve target g tok a b h
    exact boldRedAt_setBoldRed
      (boldRedAt_addEdge
        (boldRedAt_addNode h resolve targetNodeName (some target) (some fillRed)
          (some boxShape)) tok targetNodeName none) tok targetNodeName

/-- Witness for C8: a non-primary token step over an existing bold red edge
leaves it bold and red. -/
theorem c8_bold_style_monotonic_witness :
    boldRedAt (tokenStep rsvX false ("#abcabc".toList) 'x'
      ⟨gBold, "A".toList, true, []⟩ "B".toList).g "A".toList "B".toList :=
  c8_bold_style_monotonic.1 rsvX false ("#abcabc".toList) 'x'
    ⟨gBold, "A".toList, true, []⟩ "B".toList "A".toList "B".toList
    (by unfold boldRedAt; decide)

/-- C6: (i) a merge whose new label's bare form followed by the primary
marker is already recorded leaves the state untouched, so a starred entry
is never displaced by a later duplicate; and (ii) in every graph built by
`make_bgpmap` from carriage-return-free paths, each rendered edge label
lists its starred entries before all unstarred ones. -/
theorem c6_starred_label_precedence :
    (∀ (g : GraphState) (a b : PyStr) (e : PEdge) (l cur : PyStr),
        getEdge g a b = some e → e.label = some cur →
        (stripAllStars l ++ ['*']) ∈ splitOnChar '\r' cur →
        addEdge g a b (some l) = g) ∧
    (∀ (resolve : PyStr → PyStr) (target rrc location : PyStr) (paths : List PyStr)
        (colorOf : Nat → PyStr) (g : GraphState),
        (∀ p ∈ paths, '\r' ∉ p) →
        makeBgpmap resolve target rrc location paths colorOf = some g →
        graphLabelsOk g) := by
  constructor
  · intro g a b e l cur hge hel hmem
    unfold addEdge
    rw [hge]
    by_cases hl : l = []
    · simp [hl]
    · simp [hl, hel, hmem]
  · intro resolve target rrc location paths colorOf g hcr h
    obtain ⟨g1, tok, hb, rfl⟩ := makeBgpmap_eq_some h
    have h0 : graphLabelsOk (addNode resolve graphState0
        (rrc ++ " - ".toList ++ location) (some rrc) (some fillRed) (some boxShape)) := by
      apply graphLabelsOk_addNode
      intro e he
      exact absurd he (List.not_mem_nil e)
    have h1 := graphLabelsOk_buildPaths h0 hcr hb
    have h2 := graphLabelsOk_addNode h1 resolve targetNodeName (some target)
      (some fillRed) (some boxShape)
    have h3 := graphLabelsOk_addEdge h2 tok targetNodeName none
      (fun l hl => absurd hl (by simp))
    have h4 : graphLabelsOk (setEdgeStyle
        (addEdge (addNode resolve g1 targetNodeName (some target) (some fillRed)
          (some boxShape)) tok targetNodeName none) tok targetNodeName "bold".toList) :=
      graphLabelsOk_updEdge_keepLabel h3 tok targetNodeName
        (fun e => { e with style := some "bold".toList }) (fun e => rfl)
    exact graphLabelsOk_updEdge_keepLabel h4 tok targetNodeName
      (fun e => { e with color := some "red".toList }) (fun e => rfl)

/-- Witness for C6: the concrete no-op merge, and the starred-first order
of every label of a concrete two-path build. -/
theorem c6_starred_label_precedence_witness :
    addEdge gW "S".toList "D".toList (some "200".toList) = gW ∧
    graphLabelsOk ((makeBgpmap rsvX "193.0.0.0/21".toList "RRC01".toList
      "Amsterdam".toList ["100 200".toList, "100 300".toList] colorX).getD graphState0) :=
  ⟨c6_starred_label_precedence.1 gW "S".toList "D".toList eW "200".toList "200*".toList
      (by rfl) (by rfl) (by decide),
    c6_starred_label_precedence.2 rsvX "193.0.0.0/21".toList "RRC01".toList
      "Amsterdam".toList ["100 200".toList, "100 300".toList] colorX _
      (by decide) (by rfl)⟩

/-- C1 (amended): a vantage point with an empty path list makes
`make_bgpmap` fail — the final-edge step reads the loop variable `_as`,
which was never bound — rather than producing the two-node minimal graph. -/
theorem c1_empty_paths_build_fails (resolve : PyStr → PyStr) (target rrc location : PyStr)
    (colorOf : Nat → PyStr) :
    makeBgpmap resolve target rrc location [] colorOf = none := rfl

/-- Counterexample for C1 as stated: for a concrete vantage point with zero
paths, graph construction does not complete; it yields no graph at all. -/
theorem c1_empty_paths_counterexample :
    makeBgpmap rsvX "193.0.0.0/21".toList "RRC01".toList "Amsterdam".toList [] colorX
      = none := rfl

/-- C4: prepend stripping appends a token only when it differs from the
token appended immediately before, so the output never holds two equal
adjacent tokens; the non-adjacent revisit `A B A` survives, `A A B`
collapses, and empty input yields empty output. -/
theorem c4_normalization_adjacent_distinct :
    (∀ toks : List PyStr, List.Chain' (· ≠ ·) (normalizePath toks)) ∧
    normalizePath ["A".toList, "B".toList, "A".toList]
      = ["A".toList, "B".toList, "A".toList] ∧
    normalizePath ["A".toList, "A".toList, "B".toList]
      = ["A".toList, "B".toList] ∧
    normalizePath ([] : List PyStr) = [] := by
  refine ⟨?_, by decide, by decide, rfl⟩
  have key : ∀ (toks : List PyStr) (acc : List PyStr), List.Chain' (· ≠ ·) acc →
      List.Chain' (· ≠ ·) (toks.foldl normStep acc) := by
    intro toks
    induction toks with
    | nil => intro acc h; simpa using h
    | cons t ts ih =>
      intro acc h
      rw [List.foldl_cons]
      apply ih
      unfold normStep
      split
      · exact h
      · rename_i hne
        rw [List.chain'_append]
        refine ⟨h, List.chain'_singleton _, ?_⟩
        intro x hx y hy
        simp only [List.head?_cons, Option.mem_def, Option.some.injEq] at hy
        subst hy
        intro hxy
        apply hne
        rw [Option.mem_def] at hx
        rw [hx]
        simpa using hxy
  exact fun toks => key toks [] (by simp)

/-- C2: evaluation at the failing input.  On the primary path
`"100 200 300"` the source compares the final token `"300"` against
`asmap[-1]`, the one-character string `"0"`, so the node for the path's
final hop is created without the box shape the specification promises. -/
theorem c2_last_hop_bug_eval :
    (getNode ((makeBgpmap rsvX "193.0.0.0/21".toList "RRC01".toList "Amsterdam".toList
      ["100 200 300".toList] colorX).getD graphState0) "300".toList).map PNode.shape
      = some none := rfl

/-- Counterexample for C9 as stated: when a path token is the literal
string `Prefix`, the terminal target-node call finds the identifier taken
and changes nothing — the finished graph's target node has no box shape,
so the call does not force highlighted box style. -/
theorem c9_forced_style_counterexample :
    (getNode ((makeBgpmap rsvX "10.0.0.0/24".toList "RRC01".toList "Loc".toList
      ["100 Prefix".toList] colorX).getD graphState0) targetNodeName).map PNode.shape
      = some none := rfl

/-- C9 (amended): the terminal target-node creation obeys the same
first-write-wins rule as every other `add_node` call: an existing node
with the target identifier is left entirely unchanged, and only when the
identifier is absent is the node created with highlighted box style. -/
theorem c9_target_node_first_write_wins (resolve : PyStr → PyStr) (g : GraphState)
    (target : PyStr) :
    ((getNode g targetNodeName).isSome = true →
      addNode resolve g targetNodeName (some target) (some fillRed) (some boxShape) = g) ∧
    ((getNode g targetNodeName).isSome = false →
      (addNode resolve g targetNodeName (some target) (some fillRed) (some boxShape)).nodes
        = g.nodes ++ [⟨targetNodeName, wrapLabel target, "filled".toList, "10".toList,
            some fillRed, some boxShape⟩]) := by
  constructor
  · intro h
    unfold addNode
    rw [if_pos h]
  · intro h
    unfold addNode
    rw [if_neg (by rw [h]; simp)]
    rfl

/-- Witness for C9: on the empty graph the target node is freshly created
with highlighted box style. -/
theorem c9_target_node_first_write_wins_witness :
    (addNode rsvX graphState0 targetNodeName (some "193.0.0.0/21".toList)
      (some fillRed) (some boxShape)).nodes
      = graphState0.nodes ++ [⟨targetNodeName, wrapLabel "193.0.0.0/21".toList,
          "filled".toList, "10".toList, some fillRed, some boxShape⟩] :=
  (c9_target_node_first_write_wins rsvX graphState0 "193.0.0.0/21".toList).2 rfl

/-- C10 (amended): in Scenario B node `100` is created once, the edge from
the vantage-point node to `100` carries only the primary label `100*`,
node `200` is styled highlighted (it lies on the primary path) while node
`400` is neutral white, and the edge from `300` to the target node is bold
red. -/
theorem c10_scenario_b_eval :
    (scenB.nodes.filter (fun n => decide (n.name = "100".toList))).length = 1 ∧
    (getEdge scenB "RRC01 - Amsterdam".toList "100".toList).map PEdge.label
      = some (some "100*".toList) ∧
    (getNode scenB "200".toList).map PNode.fillcolor = some (some fillRed) ∧
    (getNode scenB "400".toList).map PNode.fillcolor = some (some fillWhite) ∧
    (getEdge scenB "300".toList targetNodeName).map PEdge.style
      = some (some "bold".toList) ∧
    (getEdge scenB "300".toList targetNodeName).map PEdge.color
      = some (some "red".toList) :=
  ⟨rfl, rfl, rfl, rfl, rfl, rfl⟩

/-- Counterexample for C10 as stated: node `200` of Scenario B is filled
with the highlighted colour, not the neutral white the claim asserts. -/
theorem c10_scenario_b_counterexample :
    (getNode scenB "200".toList).map PNode.fillcolor ≠ some (some fillWhite) := by
  decide

/-- Counterexample for C3 as stated: on the primary path `"100 200"` the
first-hop edge label is the raw token `100` with the primary marker — not
the AS-name-resolved display string, which always starts with `AS`. -/
theorem c3_edge_label_counterexample :
    (getEdge ((makeBgpmap rsvX "193.0.0.0/21".toList "RRC01".toList "Loc".toList
      ["100 200".toList] colorX).getD graphState0)
      "RRC01 - Loc".toList "100".toList).map PEdge.label
      = some (some "100*".toList) ∧
    getAsName rsvX "100".toList ++ ['*'] ≠ "100*".toList :=
  ⟨rfl, by decide⟩

theorem tokenStep_done (resolve : PyStr → PyStr) (first : Bool) (color : PyStr)
    (lastChar : Char) (g : GraphState) (prev t : PyStr) :
    tokenStep resolve first color lastChar ⟨g, prev, true, []⟩ t
      = ⟨(laterHopStep resolve first color lastChar (g, prev) t).1,
         (laterHopStep resolve first color lastChar (g, prev) t).2, true, []⟩ := rfl

theorem tokenStep_start (resolve : PyStr → PyStr) (first : Bool) (color : PyStr)
    (lastChar : Char) (g : GraphState) (prev t : PyStr) :
    tokenStep resolve first color lastChar ⟨g, prev, false, []⟩ t
      = ⟨(firstHopStep resolve first color lastChar (g, prev) t).1,
         (firstHopStep resolve first color lastChar (g, prev) t).2, true, []⟩ := rfl

theorem foldl_tokenStep_done (resolve : PyStr → PyStr) (first : Bool) (color : PyStr)
    (lastChar : Char) :
    ∀ (ts : List PyStr) (g : GraphState) (prev : PyStr),
      ts.foldl (tokenStep resolve first color lastChar) ⟨g, prev, true, []⟩
        = ⟨(ts.foldl (laterHopStep resolve first color lastChar) (g, prev)).1,
           (ts.foldl (laterHopStep resolve first color lastChar) (g, prev)).2, true, []⟩
  | [], _, _ => rfl
  | t :: ts, g, prev => by
      rw [List.foldl_cons, tokenStep_done, List.foldl_cons]
      rw [foldl_tokenStep_done resolve first color lastChar ts
        (laterHopStep resolve first color lastChar (g, prev) t).1
        (laterHopStep resolve first color lastChar (g, prev) t).2]

/-- C3 (amended): processing a path's token list decomposes into one first
step whose edge-add call carries the label `mkHopLabel first t` — the raw
first token with a trailing `*` exactly on the primary path — followed by
steps whose edge-add calls carry no label at all; later hops never
contribute a label. -/
theorem c3_first_hop_raw_label (resolve : PyStr → PyStr) (first : Bool) (color : PyStr)
    (lastChar : Char) (g : GraphState) (prev : PyStr) (t : PyStr) (ts : List PyStr) :
    (t :: ts).foldl (tokenStep resolve first color lastChar) ⟨g, prev, false, []⟩
      = ⟨(ts.foldl (laterHopStep resolve first color lastChar)
            (firstHopStep resolve first color lastChar (g, prev) t)).1,
         (ts.foldl (laterHopStep resolve first color lastChar)
            (firstHopStep resolve first color lastChar (g, prev) t)).2, true, []⟩ ∧
    mkHopLabel true t = t ++ ['*'] ∧ mkHopLabel false t = t := by
  refine ⟨?_, rfl, rfl⟩
  rw [List.foldl_cons, tokenStep_start, foldl_tokenStep_done]

theorem endsStar_true_iff {x : PyStr} : endsStar x = true ↔ x.getLast? = some '*' := by
  simp [endsStar]

/-- C7: a merge on an existing labelled edge with a non-empty new label
whose starred form is absent replaces every entry sharing the new label's
bare form, inserts the new label, and stable-sorts starred entries first.
The escape-inertness hypotheses say the labels involved contain none of the
characters rewritten by the builder's `escape` (true of AS-number tokens);
`stripAllStars l = bareForm l` says the new label carries stars only as the
trailing primary marker. -/
theorem c7_merge_replaces_and_sorts (g : GraphState) (a b : PyStr) (e : PEdge)
    (l cur : PyStr)
    (hge : getEdge g a b = some e) (hel : e.label = some cur) (hl : l ≠ [])
    (hmem : (stripAllStars l ++ ['*']) ∉ splitOnChar '\r' cur)
    (hcr : '\r' ∉ l)
    (hinl : ∀ c ∈ l, escapeInert c) (hincur : ∀ c ∈ cur, escapeInert c)
    (hstar : stripAllStars l = bareForm l) :
    ∃ newList,
      newList = sortStarredFirst (l :: (splitOnChar '\r' cur).filter
        (fun x => ¬ (stripAllStars l).isPrefixOf x)) ∧
      (getEdge (addEdge g a b (some l)) a b).map PEdge.label
        = some (some (joinChar '\r' newList)) ∧
      l ∈ newList ∧
      (∀ x ∈ newList, x ≠ l → bareForm x ≠ bareForm l) ∧
      starredFirst newList := by
  have hkey := (getEdge_mem hge).2
  set survivors := (splitOnChar '\r' cur).filter
    (fun x => ¬ (stripAllStars l).isPrefixOf x) with hsurv
  refine ⟨sortStarredFirst (l :: survivors), rfl, ?_, ?_, ?_, ?_⟩
  · -- the stored label after the merge
    have heq : addEdge g a b (some l)
        = updEdge g a b (fun e0 => { e0 with label := some (mergedLabelStr cur l) }) := by
      unfold addEdge
      rw [hge]
      simp [hl, hel, hmem]
    rw [heq, getEdge_updEdge_self g a b
      (fun e0 => { e0 with label := some (mergedLabelStr cur l) }) (fun _ => ⟨rfl, rfl⟩),
      hge, Option.map_some', if_pos hkey]
    have hid : (sortStarredFirst (l :: survivors)).map pyEscape
        = sortStarredFirst (l :: survivors) := by
      have hall : ∀ x ∈ sortStarredFirst (l :: survivors), pyEscape x = id x := by
        intro x hx
        rcases List.mem_cons.1 (mem_sortStarredFirst.1 hx) with rfl | hxs
        · exact pyEscape_eq_of_inert hinl
        · exact pyEscape_eq_of_inert (fun c hc =>
            hincur c ((mem_splitOnChar (List.mem_filter.1 hxs).1).1 c hc))
      rw [List.map_congr_left hall, List.map_id]
    have hmerged : mergedLabelStr cur l = joinChar '\r' (sortStarredFirst (l :: survivors)) := by
      unfold mergedLabelStr
      rw [pyEscape_joinChar_cr, hid]
    rw [hmerged]
    rfl
  · exact mem_sortStarredFirst.2 (List.mem_cons_self l survivors)
  · intro x hx hxl hbf
    rcases List.mem_cons.1 (mem_sortStarredFirst.1 hx) with rfl | hxs
    · exact hxl rfl
    · have hnp : ¬ (stripAllStars l).isPrefixOf x := by
        simpa using (List.mem_filter.1 hxs).2
      apply hnp
      rw [ List.isPrefixOf_iff_prefix]
      by_cases hsx : endsStar x
      · have hx2 : x = bareForm x ++ ['*'] := by
          unfold bareForm
          rw [if_pos hsx]
          exact (List.dropLast_append_getLast? '*' (endsStar_true_iff.1 hsx)).symm
        rw [hx2, hbf, ← hstar]
        exact List.prefix_append _ _
      · have hx2 : bareForm x = x := by
          unfold bareForm
          rw [if_neg hsx]
        rw [← hx2, hbf, ← hstar]
  · exact starredFirst_sortStarredFirst _

/-- Witness for C7: merging label `100*` into the edge labelled `200*`
yields the label list `100* 200*` (starred entries first, new label
present, no bare-form duplicate). -/
theorem c7_merge_replaces_and_sorts_witness :
    ∃ newList,
      newList = sortStarredFirst ("100*".toList :: (splitOnChar '\r' "200*".toList).filter
        (fun x => ¬ (stripAllStars "100*".toList).isPrefixOf x)) ∧
      (getEdge (addEdge gW "S".toList "D".toList (some "100*".toList))
        "S".toList "D".toList).map PEdge.label
        = some (some (joinChar '\r' newList)) ∧
      "100*".toList ∈ newList ∧
      (∀ x ∈ newList, x ≠ "100*".toList → bareForm x ≠ bareForm "100*".toList) ∧
      starredFirst newList :=
  c7_merge_replaces_and_sorts gW "S".toList "D".toList eW "100*".toList "200*".toList
    rfl rfl (by decide) (by decide) (by decide)
    (by unfold escapeInert; decide) (by unfold escapeInert; decide) (by decide)
